import Mathlib

/-!
# Verification of the irg search-and-preview coordination engine

Shallow embedding of the core of `William9923/irg` (a terminal UI around
ripgrep) together with proofs about its specified behaviour.

The embedded code comes from:
* `internal/ui/paths.go` — fuzzy path completion (`scorePathMatch`,
  `FilterPaths`, `sortPathMatches`);
* `internal/ui/model.go` — the Bubble Tea event loop (`Model.Update`,
  `Model.executeSearch`, `Model.loadPreview`, `highlightMatches`);
* `internal/search` (search.go) — the ripgrep adapter (`Searcher.Search`
  scanner goroutine, `GetFileContextWithMatches`).

Strings that are only compared for equality are kept as Lean `String`;
strings whose characters are inspected (path scoring, highlighting) are
modelled as `List Char` (Go indexes bytes; for the ASCII data handled here
the two coincide).  Go slices become `List`, Go `int` becomes `Nat` where
the code keeps the value non-negative and `Int` where negative values can
reach the function (submatch offsets).  Machine-integer overflow is
irrelevant at the sizes involved (counters bounded by list lengths).
-/

namespace Irg

/-! ## Data model: `Match` and `Submatch` (internal/search/search.go) -/

/-- `Submatch` from internal/search: byte offsets into the match line.
`Start`/`End` are Go `int`s and may be arbitrary (the documented invariant
`0 <= start <= end <= len(lineText)` is *not* enforced by the parser), so
they are modelled as `Int`. -/
structure Submatch where
  Match : String
  Start : Int
  End : Int
deriving DecidableEq, Repr

/-- `Match` from internal/search: one matching line reported by ripgrep. -/
structure Match where
  Path : String
  LineNumber : Nat
  LineText : String
  Submatches : List Submatch
deriving DecidableEq, Repr

/-! ## Path fuzzy completion (internal/ui/paths.go)

Character-level string model: Go strings become `List Char`.
-/

/-- `strings.ToLower` restricted to ASCII (the only case the repository's
paths exercise). -/
def toLowerStr (s : List Char) : List Char := s.map Char.toLower

/-- The platform path separator; the embedding models a Unix build of the
program, where `os.PathSeparator` is `'/'`. -/
def pathSeparator : Char := '/'

/-- `filepath.ToSlash`: replace the platform separator by `'/'`. -/
def toSlash (s : List Char) : List Char :=
  s.map (fun c => if c = pathSeparator then '/' else c)

/-- `strings.HasPrefix s pre` — `pre` is a prefix of `s`. -/
def strHasPre (pre s : List Char) : Bool := List.isPrefixOf pre s

/-- `strings.Contains s sub` — `sub` occurs as a contiguous substring of `s`. -/
def containsStr (s sub : List Char) : Bool :=
  if List.isPrefixOf sub s then true
  else match s with
    | [] => false
    | _ :: t => containsStr t sub

/-- Helper for `baseGo`: drop trailing path separators
(`for len(path) > 0 && os.IsPathSeparator(path[len(path)-1])`). -/
def stripTrailingSep (s : List Char) : List Char :=
  ((s.reverse).dropWhile (fun c => c = '/')).reverse

/-- Helper for `baseGo`: everything after the last `'/'` (the whole string
when it has no separator). -/
def afterLastSlash (s : List Char) : List Char :=
  ((s.reverse).takeWhile (fun c => c ≠ '/')).reverse

/-- `filepath.Base` (Unix): "" ↦ ".", strip trailing slashes, keep the last
element, all-slashes ↦ "/". -/
def baseGo (path : List Char) : List Char :=
  if path = [] then ['.']
  else
    let p := stripTrailingSep path
    let p2 := afterLastSlash p
    if p2 = [] then ['/'] else p2

/-- `scorePathMatch` from internal/ui/paths.go, line for line: lowercase and
slash-normalize both arguments, then try exact match (2000), full-path
prefix (1000), basename prefix (800), post-separator boundary (500),
substring (100), otherwise 0. -/
def scorePathMatch (input path : List Char) : Nat :=
  let inputN := toLowerStr (toSlash input)
  let pathLower := toLowerStr (toSlash path)
  if inputN = pathLower then 2000
  else if strHasPre inputN pathLower then 1000
  else if strHasPre inputN (baseGo pathLower) then 800
  else if containsStr pathLower ('/' :: inputN) then 500
  else if containsStr pathLower inputN then 100
  else 0

/-- Modelled from the spec wording of the scoring rule, for comparison with
the implementation (`scorePathMatch`): "case-insensitive,
path-separator-normalized: exact match = 2000; prefix match of full path =
1000; prefix match of the final path segment (basename) = 800; input appears
immediately after a path separator boundary = 500; input appears anywhere as
a substring = 100; no match = 0". -/
def scorePathMatchSpec (input path : List Char) : Nat :=
  let i := toLowerStr (toSlash input)
  let p := toLowerStr (toSlash path)
  if i = p then 2000
  else if strHasPre i p then 1000
  else if strHasPre i (baseGo p) then 800
  else if containsStr p ('/' :: i) then 500
  else if containsStr p i then 100
  else 0

/-- `PathEntry` from internal/ui/paths.go. -/
structure PathEntry where
  Path : List Char
  IsDir : Bool
  Score : Nat
deriving DecidableEq, Repr

/-- `maxPathResults` constant from internal/ui/paths.go. -/
def maxPathResults : Nat := 50

/-- Go string `<` (bytewise lexicographic), as `≤`, on `List Char`. -/
def strLe : List Char → List Char → Bool
  | [], _ => true
  | _ :: _, [] => false
  | a :: as, b :: bs => if a < b then true else if b < a then false else strLe as bs

/-- The ordering used by `sortPathMatches`'s `less` closure, read as the
non-strict "comes no later than" relation: higher score first, ties broken
by ascending path. -/
def pmLe (a b : PathEntry) : Bool :=
  (b.Score < a.Score) || (a.Score == b.Score && strLe a.Path b.Path)

/-- Insert into a `pmLe`-sorted list. -/
def insertPM (x : PathEntry) : List PathEntry → List PathEntry
  | [] => [x]
  | y :: ys => if pmLe x y then x :: y :: ys else y :: insertPM x ys

/-- `sortPathMatches` from internal/ui/paths.go: `sort.Slice` with
`less(i,j) = Score_i > Score_j, ties Path_i < Path_j`.  `sort.Slice` is an
unstable comparison sort; it is modelled by an insertion sort producing a
permutation of the input sorted by the same ordering (`pmLe`), which fixes
the output uniquely except between entries equal in both score and path. -/
def sortPathMatches : List PathEntry → List PathEntry
  | [] => []
  | x :: xs => insertPM x (sortPathMatches xs)

/-- `PathProvider.FilterPaths` from internal/ui/paths.go: empty input yields
nothing, otherwise keep the entries with positive score (with the score
filled in), sort, and truncate to `maxPathResults`. -/
def FilterPaths (input : List Char) (allPaths : List PathEntry) : List PathEntry :=
  if input = [] then []
  else
    let kept := allPaths.filterMap (fun e =>
      let sc := scorePathMatch input e.Path
      if 0 < sc then some { e with Score := sc } else none)
    let sorted := sortPathMatches kept
    if maxPathResults < sorted.length then sorted.take maxPathResults else sorted

/-! Ordering facts about `sortPathMatches`. -/

theorem strLe_total (a b : List Char) : strLe a b = true ∨ strLe b a = true := by
  induction a generalizing b with
  | nil => left; rfl
  | cons x xs ih =>
    cases b with
    | nil => right; rfl
    | cons y ys =>
      by_cases hxy : x < y
      · left; simp [strLe, hxy]
      · by_cases hyx : y < x
        · right; simp [strLe, hyx, hxy]
        · rcases ih ys with h | h
          · left; simp [strLe, hxy, hyx, h]
          · right; simp [strLe, hxy, hyx, h]

theorem pmLe_total (a b : PathEntry) : pmLe a b = true ∨ pmLe b a = true := by
  unfold pmLe
  rcases Nat.lt_trichotomy a.Score b.Score with h | h | h
  · right; simp [h]
  · rcases strLe_total a.Path b.Path with hs | hs
    · left; simp [h, hs]
    · right; simp [h, hs]
  · left; simp [h]

theorem mem_insertPM {x a : PathEntry} {l : List PathEntry} :
    a ∈ insertPM x l ↔ a = x ∨ a ∈ l := by
  induction l with
  | nil => simp [insertPM]
  | cons y ys ih =>
    unfold insertPM
    by_cases h : pmLe x y = true
    · simp [h]
    · simp only [if_neg h, List.mem_cons, ih]
      tauto

theorem mem_sortPathMatches {a : PathEntry} {l : List PathEntry} :
    a ∈ sortPathMatches l ↔ a ∈ l := by
  induction l with
  | nil => simp [sortPathMatches]
  | cons x xs ih => simp [sortPathMatches, mem_insertPM, ih]

theorem strLe_trans {a b c : List Char} (hab : strLe a b = true)
    (hbc : strLe b c = true) : strLe a c = true := by
  induction a generalizing b c with
  | nil => rfl
  | cons x xs ih =>
    cases b with
    | nil => simp [strLe] at hab
    | cons y ys =>
      cases c with
      | nil => simp [strLe] at hbc
      | cons z zs =>
        simp only [strLe] at hab hbc ⊢
        by_cases hxy : x < y
        · have hyz : y ≤ z := by
            by_cases h1 : y < z
            · exact le_of_lt h1
            · by_cases h2 : z < y
              · simp [h1, h2] at hbc
              · exact le_of_not_lt h2
          have hxz : x < z := lt_of_lt_of_le hxy hyz
          simp [hxz]
        · by_cases hyx : y < x
          · simp [hxy, hyx] at hab
          · have hxy' : x = y := le_antisymm (le_of_not_lt hyx) (le_of_not_lt hxy)
            subst hxy'
            by_cases hxz : x < z
            · simp [hxz]
            · by_cases hzx : z < x
              · simp [hxz, hzx] at hbc ⊢
              · simp only [if_neg hxz, if_neg hzx]
                simp [hxy, hyx] at hab
                simp [hxz, hzx] at hbc
                exact ih hab hbc

theorem pmLe_trans {a b c : PathEntry} (hab : pmLe a b = true)
    (hbc : pmLe b c = true) : pmLe a c = true := by
  unfold pmLe at hab hbc ⊢
  simp only [Bool.or_eq_true, Bool.and_eq_true, decide_eq_true_eq, beq_iff_eq] at hab hbc ⊢
  rcases hab with hab | ⟨hab₁, hab₂⟩
  · rcases hbc with hbc | ⟨hbc₁, hbc₂⟩
    · exact Or.inl (lt_trans hbc hab)
    · exact Or.inl (hbc₁ ▸ hab)
  · rcases hbc with hbc | ⟨hbc₁, hbc₂⟩
    · exact Or.inl (hab₁ ▸ hbc)
    · exact Or.inr ⟨hab₁.trans hbc₁, strLe_trans hab₂ hbc₂⟩

theorem insertPM_sorted {x : PathEntry} {l : List PathEntry}
    (h : l.Pairwise (fun a b => pmLe a b = true)) :
    (insertPM x l).Pairwise (fun a b => pmLe a b = true) := by
  induction l with
  | nil => simp [insertPM]
  | cons y ys ih =>
    rcases List.pairwise_cons.mp h with ⟨hy, hys⟩
    unfold insertPM
    by_cases hxy : pmLe x y = true
    · rw [if_pos hxy]
      refine List.pairwise_cons.mpr ⟨?_, h⟩
      intro b hb
      rcases List.mem_cons.mp hb with rfl | hb
      · exact hxy
      · exact pmLe_trans hxy (hy b hb)
    · rw [if_neg hxy]
      refine List.pairwise_cons.mpr ⟨?_, ih hys⟩
      intro b hb
      rcases mem_insertPM.mp hb with rfl | hb
      · rcases pmLe_total y b with h' | h'
        · exact h'
        · exact absurd h' hxy
      · exact hy b hb

theorem sortPathMatches_sorted (l : List PathEntry) :
    (sortPathMatches l).Pairwise (fun a b => pmLe a b = true) := by
  induction l with
  | nil => simp [sortPathMatches]
  | cons x xs ih => exact insertPM_sorted ih

/-- The ranking order stated by the spec: strictly higher score first, equal
scores ordered by ascending lexicographic path. -/
def rankRel (a b : PathEntry) : Prop :=
  b.Score < a.Score ∨ (a.Score = b.Score ∧ strLe a.Path b.Path = true)

theorem pmLe_iff_rankRel (a b : PathEntry) : pmLe a b = true ↔ rankRel a b := by
  unfold pmLe rankRel
  simp [Bool.or_eq_true, Bool.and_eq_true]

theorem FilterPaths_mem {input : List Char} {l : List PathEntry} {e : PathEntry}
    (he : e ∈ FilterPaths input l) :
    0 < e.Score ∧ e.Score = scorePathMatch input e.Path ∧
      ∃ e0 ∈ l, e.Path = e0.Path ∧ e.IsDir = e0.IsDir := by
  unfold FilterPaths at he
  by_cases hin : input = []
  · simp [hin] at he
  · rw [if_neg hin] at he
    simp only at he
    have he' : e ∈ sortPathMatches (l.filterMap (fun e =>
        if 0 < scorePathMatch input e.Path
        then some { e with Score := scorePathMatch input e.Path } else none)) := by
      split at he
      · exact (List.take_sublist _ _).subset he
      · exact he
    have he'' := mem_sortPathMatches.mp he'
    rcases List.mem_filterMap.mp he'' with ⟨a, ha, hfa⟩
    split at hfa
    · rename_i hsc
      cases hfa
      exact ⟨hsc, rfl, a, ha, rfl, rfl⟩
    · cases hfa

theorem FilterPaths_sorted (input : List Char) (l : List PathEntry) :
    (FilterPaths input l).Pairwise rankRel := by
  have base : (FilterPaths input l).Pairwise (fun a b => pmLe a b = true) := by
    unfold FilterPaths
    by_cases hin : input = []
    · simp [hin]
    · rw [if_neg hin]
      simp only
      split
      · exact List.Pairwise.sublist (List.take_sublist _ _) (sortPathMatches_sorted _)
      · exact sortPathMatches_sorted _
  exact base.imp (fun h => (pmLe_iff_rankRel _ _).mp h)

theorem FilterPaths_length_le (input : List Char) (l : List PathEntry) :
    (FilterPaths input l).length ≤ maxPathResults := by
  unfold FilterPaths
  by_cases hin : input = []
  · simp [hin, maxPathResults]
  · rw [if_neg hin]
    simp only
    split
    · exact (List.length_take_le _ _)
    · omega

/-- C6: `scorePathMatch(input, path)` computes, after lowercasing and
path-separator normalization of both arguments: 2000 on equality, else 1000
on full-path prefix, else 800 on basename prefix, else 500 on a
`"/"+input` boundary occurrence, else 100 on any substring occurrence, else
0 (shown by agreement with the spec-worded `scorePathMatchSpec`); and
`FilterPaths` keeps only candidates with positive score (each kept entry
carries the score of its own path and stems from a candidate), sorts by
descending score with ties broken by ascending lexicographic path order
(`rankRel`), and truncates to at most 50 entries. -/
theorem c6_scorePathMatch_and_FilterPaths (input path : List Char) (l : List PathEntry) :
    scorePathMatch input path = scorePathMatchSpec input path ∧
    (∀ e ∈ FilterPaths input l, 0 < e.Score ∧ e.Score = scorePathMatch input e.Path ∧
      ∃ e0 ∈ l, e.Path = e0.Path ∧ e.IsDir = e0.IsDir) ∧
    (FilterPaths input l).Pairwise rankRel ∧
    (FilterPaths input l).length ≤ 50 :=
  ⟨rfl, fun _ he => FilterPaths_mem he, FilterPaths_sorted input l,
    FilterPaths_length_le input l⟩

/-- Witness for C6: instantiates the theorem on the concrete input `"go"`
and candidates `["main.go", "doc"]`, discharging the membership hypothesis
on the single kept entry (`"main.go"`, substring match, score 100). -/
theorem c6_witness :
    0 < ({ Path := "main.go".toList, IsDir := false, Score := 100 } : PathEntry).Score ∧
    ({ Path := "main.go".toList, IsDir := false, Score := 100 } : PathEntry).Score
      = scorePathMatch "go".toList "main.go".toList ∧
    ∃ e0 ∈ [({ Path := "main.go".toList, IsDir := false, Score := 0 } : PathEntry),
            { Path := "doc".toList, IsDir := true, Score := 0 }],
      "main.go".toList = e0.Path ∧ false = e0.IsDir :=
  (c6_scorePathMatch_and_FilterPaths "go".toList "go".toList
      [{ Path := "main.go".toList, IsDir := false, Score := 0 },
       { Path := "doc".toList, IsDir := true, Score := 0 }]).2.1
    { Path := "main.go".toList, IsDir := false, Score := 100 } (by decide)

/-- Counterexample to C7 as stated: with input `"ui"`, the candidate
`"internal/ui"` scores 800 (its basename `"ui"` has `"ui"` as prefix, a
case checked *before* the boundary rule), not the claimed 500. -/
theorem c7_counterexample :
    scorePathMatch "ui".toList "internal/ui".toList = 800 ∧
    ¬ scorePathMatch "ui".toList "internal/ui".toList = 500 := by
  constructor
  · rfl
  · decide

/-- C7 amended: with input `"ui"`, `"uix/test.go"` scores 1000 (full-path
prefix), `"internal/ui"` scores 800 (basename prefix), and
`"internal/ui/model.go"` scores 500 (boundary); the pipeline ranks them
`uix/test.go`, `internal/ui`, `internal/ui/model.go` by strictly descending
score, so the lexicographic tie-break is not exercised. -/
theorem c7_amended_ranking :
    scorePathMatch "ui".toList "uix/test.go".toList = 1000 ∧
    scorePathMatch "ui".toList "internal/ui".toList = 800 ∧
    scorePathMatch "ui".toList "internal/ui/model.go".toList = 500 ∧
    FilterPaths "ui".toList
        [{ Path := "internal/ui".toList, IsDir := true, Score := 0 },
         { Path := "internal/ui/model.go".toList, IsDir := false, Score := 0 },
         { Path := "uix/test.go".toList, IsDir := false, Score := 0 }]
      = [{ Path := "uix/test.go".toList, IsDir := false, Score := 1000 },
         { Path := "internal/ui".toList, IsDir := true, Score := 800 },
         { Path := "internal/ui/model.go".toList, IsDir := false, Score := 500 }] := by
  refine ⟨rfl, rfl, rfl, ?_⟩
  decide

/-! ## External search process adapter (internal/search, `Searcher.Search`)

The scanner goroutine reads one line at a time, decodes a
`RipgrepMessage` envelope (`json.Unmarshal`), skips the line when decoding
fails or when `Type != "match"`, then decodes the payload into `MatchData`
(skipping again on failure) and emits a `Match`.  JSON decoding itself is
library code external to the repository, so a line is modelled by the
outcome of its two decoding phases. -/

/-- `MatchData` from internal/search (flattening the nested
`Path.Text`/`Lines.Text` wrappers). -/
structure MatchData where
  pathText : String
  linesText : String
  lineNumber : Nat
  submatches : List Submatch
deriving DecidableEq, Repr

/-- One line of ripgrep output, by decoding outcome: `malformed` = the
envelope `json.Unmarshal` fails; `envelope t d` = an envelope with `Type = t`
whose `Data` decodes to `some` payload or fails (`none`). -/
inductive RgLine
  | malformed
  | envelope (type_ : String) (data : Option MatchData)
deriving DecidableEq, Repr

/-- Construction of a `Match` from a decoded payload
(internal/search `Searcher.Search`, scanner loop body). -/
def toMatch (d : MatchData) : Match :=
  { Path := d.pathText, LineNumber := d.lineNumber, LineText := d.linesText,
    Submatches := d.submatches }

/-- The scanner loop of `Searcher.Search`: skip malformed lines, skip
non-`"match"` envelopes, skip match envelopes with undecodable data, emit
everything else in input order. -/
def scanLines : List RgLine → List Match
  | [] => []
  | .malformed :: rest => scanLines rest
  | .envelope t d :: rest =>
    if t ≠ "match" then scanLines rest
    else match d with
      | none => scanLines rest
      | some md => toMatch md :: scanLines rest

/-- Observable outcome of one `Searcher.Search` call: whether an external
process was spawned, the matches sent on the results conduit, whether the
conduit was closed, and the returned error. -/
structure SearchOutcome where
  spawned : Bool
  emitted : List Match
  closed : Bool
  err : Option String
deriving DecidableEq, Repr

/-- `Searcher.Search` (internal/search): empty pattern — close the channel,
return nil, spawn nothing; spawn failure — close the channel, return the
error; otherwise stream the scanner output and close on end of stream. -/
def searchRun (pattern : String) (spawnOk : Bool) (lines : List RgLine) : SearchOutcome :=
  if pattern = "" then { spawned := false, emitted := [], closed := true, err := none }
  else if spawnOk then
    { spawned := true, emitted := scanLines lines, closed := true, err := none }
  else
    { spawned := false, emitted := [], closed := true, err := some "spawn failed" }

/-! ## Result batching consumer (`Model.executeSearch`, internal/ui/model.go)

The command returned by `executeSearch` runs one `select` loop over the
results channel, a 50 ms ticker, and the session context, and *returns* (a
single message) at the first flush condition.  A run of that loop is
determined by the serialized order in which the `select` arms fire, modelled
as a list of channel events. -/

/-- One `select`-arm firing inside the `executeSearch` batch loop. -/
inductive ChanEvent
  | recv (m : Match)   -- a match arrives on the results channel
  | closed             -- the results channel is closed (`!ok`)
  | tick               -- the 50 ms batch ticker fires
  | cancelled          -- the session context is cancelled
deriving DecidableEq, Repr

/-- The single message the `executeSearch` command can return. -/
structure SearchResultMsgE where
  matches' : List Match
  done : Bool
deriving DecidableEq, Repr

/-- The batch loop of `Model.executeSearch`: accumulate into `batch`;
return `{batch, done := false}` when the batch reaches 100 or a tick fires
with a non-empty batch; return `{batch, done := true}` on channel closure or
context cancellation.  `none` means the loop is still blocked in `select`
(no more events arrived).  Note the loop returns at most one message per
session: nothing restarts it after the first flush. -/
def consumeLoop : List ChanEvent → List Match → Option SearchResultMsgE
  | [], _ => none
  | .recv m :: rest, batch =>
    let b := batch ++ [m]
    if 100 ≤ b.length then some { matches' := b, done := false }
    else consumeLoop rest b
  | .closed :: _, batch => some { matches' := batch, done := true }
  | .tick :: rest, batch =>
    if 0 < batch.length then some { matches' := batch, done := false }
    else consumeLoop rest batch
  | .cancelled :: _, batch => some { matches' := batch, done := true }

/-- C8: for every call to `Searcher.Search` with an empty pattern, no
external process is spawned, the results channel is closed immediately, no
`Match` is ever sent, and the returned error is nil — regardless of whether
a spawn would have succeeded and of what the process would have printed. -/
theorem c8_empty_pattern_no_spawn (spawnOk : Bool) (lines : List RgLine) :
    searchRun "" spawnOk lines
      = { spawned := false, emitted := [], closed := true, err := none } := rfl

/-- Auxiliary for C4: the scanner delivers exactly the well-formed match
lines, in input order, and skips the rest. -/
theorem scanLines_matches_in_order (ds : List MatchData) :
    scanLines ((ds.map (fun d => RgLine.envelope "match" (some d)))
        ++ [RgLine.envelope "summary" none])
      = ds.map toMatch := by
  induction ds with
  | nil => rfl
  | cons d ds ih => simpa [scanLines] using ih

/-- A fixed match used to build concrete adapter streams. -/
def mEx : Match :=
  { Path := "a.go", LineNumber := 1, LineText := "x", Submatches := [] }

/-- Its decoded payload. -/
def dEx : MatchData :=
  { pathText := "a.go", linesText := "x", lineNumber := 1, submatches := [] }

/-- C4 (claim is right, code falls short): the adapter does yield exactly N
`Match` records in input order, skipping the trailing non-match line
(`scanLines_matches_in_order` instance below), but the batching consumer
does **not** emit a terminal "done" signal for every such session.  The
failing input is N = 100: the batch loop returns its single message as soon
as the batch reaches 100 — `{first 100 matches, done := false}` — and since
nothing re-runs the loop after a flush, the closure of the stream is never
observed and no done signal is ever emitted for the session. -/
theorem c4_adapter_ok_but_done_signal_lost :
    (∀ ds : List MatchData,
      scanLines ((ds.map (fun d => RgLine.envelope "match" (some d)))
          ++ [RgLine.envelope "summary" none])
        = ds.map toMatch) ∧
    scanLines (((List.replicate 100 dEx).map (fun d => RgLine.envelope "match" (some d)))
        ++ [RgLine.envelope "summary" none])
      = List.replicate 100 mEx ∧
    consumeLoop (List.replicate 100 (ChanEvent.recv mEx) ++ [ChanEvent.closed]) []
      = some { matches' := List.replicate 100 mEx, done := false } := by
  refine ⟨scanLines_matches_in_order, ?_, ?_⟩
  · rw [scanLines_matches_in_order]
    decide
  · decide

/-! ## Preview loading (`GetFileContextWithMatches`, internal/search) -/

/-- `FileContext` from internal/search. -/
structure FileContext where
  Lines : List String
  StartLine : Nat
  MatchLine : Nat
  MatchStart : Nat
  MatchEnd : Nat
  Submatches : List Submatch
deriving DecidableEq, Repr

/-- The scan loop of `GetFileContextWithMatches`: `currentLine` starts at 0
and is incremented per line; lines before `startL` are skipped, the loop
breaks past `endL`, lines in between are collected. -/
def scanLoop (ls : List String) (cur startL endL : Nat) : List String :=
  match ls with
  | [] => []
  | l :: rest =>
    let cur' := cur + 1
    if cur' < startL then scanLoop rest cur' startL endL
    else if endL < cur' then []
    else l :: scanLoop rest cur' startL endL

/-- `GetFileContextWithMatches` (internal/search), success path, with the
opened file given as its list of lines: clamp the start to line 1, scan, and
package the result (`MatchStart`/`MatchEnd` stay at their Go zero value). -/
def GetFileContextWithMatches (fileLines : List String) (lineNum contextLines : Nat)
    (submatches : List Submatch) : FileContext :=
  let startLine := if lineNum - contextLines < 1 then 1 else lineNum - contextLines
  let endLine := lineNum + contextLines
  { Lines := scanLoop fileLines 0 startLine endLine,
    StartLine := startLine, MatchLine := lineNum,
    MatchStart := 0, MatchEnd := 0, Submatches := submatches }

theorem scanLoop_of_le_cur (ls : List String) (cur startL endL : Nat)
    (h : endL ≤ cur) : scanLoop ls cur startL endL = [] := by
  induction ls generalizing cur with
  | nil => rfl
  | cons l rest ih =>
    unfold scanLoop
    simp only
    by_cases h1 : cur + 1 < startL
    · rw [if_pos h1]
      exact ih (cur + 1) (Nat.le_succ_of_le h)
    · rw [if_neg h1, if_pos (Nat.lt_succ_of_le h)]

/-- Collecting phase: once `startL ≤ cur + 1`, the loop takes the next
`endL - cur` lines. -/
theorem scanLoop_collect (ls : List String) (cur startL endL : Nat)
    (h : startL ≤ cur + 1) : scanLoop ls cur startL endL = ls.take (endL - cur) := by
  induction ls generalizing cur with
  | nil => simp [scanLoop]
  | cons l rest ih =>
    unfold scanLoop
    simp only
    rw [if_neg (by omega)]
    by_cases h2 : endL < cur + 1
    · rw [if_pos h2]
      have : endL - cur = 0 := by omega
      simp [this]
    · rw [if_neg h2]
      rw [ih (cur + 1) (by omega)]
      have : endL - cur = (endL - (cur + 1)) + 1 := by omega
      rw [this, List.take_succ_cons]

/-- Skipping phase: while `cur < startL`, the loop drops the skipped
lines and then takes the context window. -/
theorem scanLoop_slice (ls : List String) (cur startL endL : Nat)
    (hcur : cur < startL) (hse : startL ≤ endL) :
    scanLoop ls cur startL endL
      = (ls.drop (startL - cur - 1)).take (endL - startL + 1) := by
  induction ls generalizing cur with
  | nil => simp [scanLoop]
  | cons l rest ih =>
    unfold scanLoop
    simp only
    by_cases h1 : cur + 1 < startL
    · rw [if_pos h1, ih (cur + 1) h1]
      have : startL - cur - 1 = (startL - (cur + 1) - 1) + 1 := by omega
      rw [this, List.drop_succ_cons]
    · have hEq : startL = cur + 1 := by omega
      rw [if_neg h1, if_neg (by omega)]
      rw [scanLoop_collect rest (cur + 1) startL endL (by omega)]
      have h2 : startL - cur - 1 = 0 := by omega
      have h4 : endL - (cur + 1) = endL - startL := by omega
      rw [h2, h4, List.drop_zero, List.take_succ_cons]

theorem scanLoop_early_stop (xs ys : List String) (cur startL endL : Nat)
    (h : endL ≤ cur + xs.length) :
    scanLoop (xs ++ ys) cur startL endL = scanLoop xs cur startL endL := by
  induction xs generalizing cur with
  | nil =>
    simp only [List.nil_append, List.length_nil, Nat.add_zero] at h ⊢
    rw [scanLoop_of_le_cur ys cur startL endL h]
    rfl
  | cons x xs ih =>
    unfold scanLoop
    simp only [List.cons_append]
    by_cases h1 : cur + 1 < startL
    · rw [if_pos h1, if_pos h1]
      exact ih (cur + 1) (by simpa [Nat.add_comm, Nat.add_left_comm] using h)
    · rw [if_neg h1, if_neg h1]
      by_cases h2 : endL < cur + 1
      · rw [if_pos h2, if_pos h2]
      · rw [if_neg h2, if_neg h2]
        rw [ih (cur + 1) (by simp at h ⊢; omega)]

/-- C9: for every readable file (given as its lines) and every 1-based match
line number `n`, with context radius 5, `GetFileContextWithMatches` returns
a context whose `StartLine` is `max 1 (n-5)`, whose `Lines` are exactly the
file's lines from `StartLine` through `min (n+5) (total)` in file order
(expressed as a drop/take slice, which clamps at the end of the file), whose
`MatchLine` is `n`, and whose submatches are passed through; and the scan
never looks past line `n+5`: appending anything to a file that already
reaches line `n+5` leaves the result unchanged. -/
theorem c9_file_context_window (fileLines extra : List String) (n : Nat)
    (subs : List Submatch) (hn : 1 ≤ n) :
    (GetFileContextWithMatches fileLines n 5 subs).StartLine = max 1 (n - 5) ∧
    (GetFileContextWithMatches fileLines n 5 subs).MatchLine = n ∧
    (GetFileContextWithMatches fileLines n 5 subs).Submatches = subs ∧
    (GetFileContextWithMatches fileLines n 5 subs).Lines
      = (fileLines.drop (max 1 (n - 5) - 1)).take (n + 5 - max 1 (n - 5) + 1) ∧
    (n + 5 ≤ fileLines.length →
      GetFileContextWithMatches (fileLines ++ extra) n 5 subs
        = GetFileContextWithMatches fileLines n 5 subs) := by
  have hstart : (if n - 5 < 1 then 1 else n - 5) = max 1 (n - 5) := by
    rw [Nat.max_def]
    split <;> split <;> omega
  refine ⟨?_, rfl, rfl, ?_, ?_⟩
  · simpa [GetFileContextWithMatches] using hstart
  · show scanLoop fileLines 0 (if n - 5 < 1 then 1 else n - 5) (n + 5) = _
    rw [hstart]
    refine scanLoop_slice fileLines 0 (max 1 (n - 5)) (n + 5) ?_ ?_
    · exact Nat.lt_of_lt_of_le Nat.zero_lt_one (le_max_left _ _)
    · exact max_le (by omega) (by omega)
  · intro hlen
    unfold GetFileContextWithMatches
    simp only
    rw [scanLoop_early_stop fileLines extra 0 _ (n + 5) (by omega)]

/-! ## Submatch highlighting (`highlightMatches`, internal/ui/model.go)

Go slice expressions `text[a:b]` panic unless `0 ≤ a ≤ b ≤ len(text)`; they
are modelled by `sliceGo`, which returns `none` exactly when Go would panic,
and the whole function returns `Option`, so "never panics" becomes "never
returns `none`". -/

/-- Go `text[a:b]` on a byte slice: `none` iff the bounds are invalid. -/
def sliceGo (text : List Char) (a b : Int) : Option (List Char) :=
  if 0 ≤ a ∧ a ≤ b ∧ b ≤ (text.length : Int) then
    some ((text.drop a.toNat).take (b - a).toNat)
  else none

/-- The bounds guard of `highlightMatches`
(`start < 0 || end < 0 || start >= len(text) || end > len(text) || start >= end`). -/
def invalidSub (text : List Char) (sm : Submatch) : Bool :=
  decide (sm.Start < 0) || decide (sm.End < 0) ||
  decide ((text.length : Int) ≤ sm.Start) ||
  decide ((text.length : Int) < sm.End) || decide (sm.End ≤ sm.Start)

/-- One inner pass of the double loop sorting `sortedMatches` by `Start` in
`highlightMatches`: scanning `j = i+1…`, swap whenever the current element
at `i` has larger `Start` than the element at `j`.  Returns the element left
at position `i` and the rearranged tail. -/
def pass (x : Submatch) : List Submatch → Submatch × List Submatch
  | [] => (x, [])
  | y :: ys =>
    if y.Start < x.Start then ((pass y ys).1, x :: (pass y ys).2)
    else ((pass x ys).1, y :: (pass x ys).2)

theorem pass_snd_length (x : Submatch) (l : List Submatch) :
    ((pass x l).2).length = l.length := by
  induction l generalizing x with
  | nil => rfl
  | cons y ys ih =>
    unfold pass
    by_cases h : y.Start < x.Start
    · simp [h, ih]
    · simp [h, ih]

/-- The double swap loop of `highlightMatches` (its effect: the element with
the smallest `Start` is moved to the front of each suffix). -/
def selectionSort : List Submatch → List Submatch
  | [] => []
  | x :: xs => (pass x xs).1 :: selectionSort (pass x xs).2
termination_by l => l.length
decreasing_by
  simp [pass_snd_length]

/-- The main loop of `highlightMatches`: skip out-of-bounds submatches, copy
the gap `text[lastEnd:start]` when `start > lastEnd`, append the styled
`text[start:end]`, and carry `lastEnd := end`.  A `none` anywhere models a
Go slice panic. -/
def hmLoop (text : List Char) (style : List Char → List Char) :
    List Submatch → List Char → Int → Option (List Char × Int)
  | [], sb, lastEnd => some (sb, lastEnd)
  | sm :: rest, sb, lastEnd =>
    if invalidSub text sm then hmLoop text style rest sb lastEnd
    else
      (if lastEnd < sm.Start then sliceGo text lastEnd sm.Start else some []).bind
        (fun gap => (sliceGo text sm.Start sm.End).bind
          (fun mt => hmLoop text style rest (sb ++ gap ++ style mt) sm.End))

/-- `highlightMatches` from internal/ui/model.go: empty submatch list
returns the text unchanged; otherwise sort by `Start`, run the loop from
`lastEnd = 0`, and append the remaining `text[lastEnd:]` when
`lastEnd < len(text)`. -/
def highlightMatches (text : List Char) (submatches : List Submatch)
    (style : List Char → List Char) : Option (List Char) :=
  if submatches.length = 0 then some text
  else
    (hmLoop text style (selectionSort submatches) [] 0).bind
      (fun r =>
        if r.2 < (text.length : Int) then
          (sliceGo text r.2 (text.length : Int)).map (fun tail => r.1 ++ tail)
        else some r.1)

theorem sliceGo_some {text : List Char} {a b : Int} (h0 : 0 ≤ a) (h1 : a ≤ b)
    (h2 : b ≤ (text.length : Int)) :
    sliceGo text a b = some ((text.drop a.toNat).take (b - a).toNat) := by
  unfold sliceGo
  rw [if_pos ⟨h0, h1, h2⟩]

theorem hmLoop_total (text : List Char) (style : List Char → List Char)
    (subs : List Submatch) :
    ∀ (sb : List Char) (lastEnd : Int), 0 ≤ lastEnd → lastEnd ≤ (text.length : Int) →
    ∃ sb' lastEnd', hmLoop text style subs sb lastEnd = some (sb', lastEnd') ∧
      0 ≤ lastEnd' ∧ lastEnd' ≤ (text.length : Int) := by
  induction subs with
  | nil => exact fun sb lastEnd h0 h1 => ⟨sb, lastEnd, rfl, h0, h1⟩
  | cons sm rest ih =>
    intro sb lastEnd h0 h1
    by_cases hv : invalidSub text sm = true
    · simpa [hmLoop, hv] using ih sb lastEnd h0 h1
    · have hb : (((0 ≤ sm.Start ∧ 0 ≤ sm.End) ∧ sm.Start < (text.length : Int)) ∧
          sm.End ≤ (text.length : Int)) ∧ sm.Start < sm.End := by
        simpa [invalidSub, not_or] using hv
      obtain ⟨⟨⟨⟨hS0, hE0⟩, hSlen⟩, hElen⟩, hSE⟩ := hb
      simp only [hmLoop]
      rw [if_neg hv]
      by_cases hg : lastEnd < sm.Start
      · rw [if_pos hg, sliceGo_some h0 (le_of_lt hg) (by omega)]
        rw [sliceGo_some (by omega) (by omega) (by omega)]
        simpa [Option.bind] using
          ih _ sm.End (by omega) (by omega)
      · rw [if_neg hg, sliceGo_some (by omega) (by omega) (by omega)]
        simpa [Option.bind] using
          ih _ sm.End (by omega) (by omega)

/-- C10: `highlightMatches` is total and never indexes out of the bounds of
`text` for any input (it always returns `some` string, never the `none`
that models a Go slice panic), and every submatch failing the bounds guard —
`start < 0`, `end < 0`, `start ≥ len`, `end > len`, or `start ≥ end` — is
skipped entirely: the loop treats it exactly as if it were absent. -/
theorem c10_highlightMatches_safe (text : List Char) (subs : List Submatch)
    (style : List Char → List Char) :
    (highlightMatches text subs style).isSome = true ∧
    (∀ sm rest sb lastEnd, invalidSub text sm = true →
      hmLoop text style (sm :: rest) sb lastEnd = hmLoop text style rest sb lastEnd) := by
  constructor
  · unfold highlightMatches
    by_cases hlen : subs.length = 0
    · rw [if_pos hlen]; rfl
    · rw [if_neg hlen]
      obtain ⟨sb', le', heq, hle0, hle1⟩ :=
        hmLoop_total text style (selectionSort subs) [] 0 le_rfl (Int.ofNat_nonneg _)
      rw [heq]
      simp only [Option.bind]
      by_cases hfin : le' < (text.length : Int)
      · rw [if_pos hfin, sliceGo_some hle0 (le_of_lt hfin) le_rfl]
        rfl
      · rw [if_neg hfin]; rfl
  · intro sm rest sb lastEnd h
    simp only [hmLoop]
    rw [if_pos h]

/-- Witness for C10: a submatch with `Start = -1, End = 5` on the two-byte
text `"ab"` is rejected by the guard, skipped by the loop, and the function
still returns a string. -/
theorem c10_witness :
    (highlightMatches "ab".toList [{ Match := "x", Start := -1, End := 5 }]
        (fun s => s)).isSome = true ∧
    hmLoop "ab".toList (fun s => s) [{ Match := "x", Start := -1, End := 5 }] [] 0
      = hmLoop "ab".toList (fun s => s) [] [] 0 :=
  ⟨(c10_highlightMatches_safe "ab".toList [{ Match := "x", Start := -1, End := 5 }]
      (fun s => s)).1,
   (c10_highlightMatches_safe "ab".toList [{ Match := "x", Start := -1, End := 5 }]
      (fun s => s)).2 { Match := "x", Start := -1, End := 5 } [] [] 0 (by decide)⟩

/-- Witness for C9: a 10-line file, match at line 3, radius 5 — the context
runs from line 1 through line 8, and a longer file tail is never read. -/
theorem c9_witness :
    (1 ≤ 3) ∧
    (GetFileContextWithMatches ["a","b","c","d","e","f","g","h","i","j"] 3 5 []).StartLine
       = max 1 (3 - 5) ∧
    (GetFileContextWithMatches ["a","b","c","d","e","f","g","h","i","j"] 3 5 []).MatchLine = 3 ∧
    (GetFileContextWithMatches ["a","b","c","d","e","f","g","h","i","j"] 3 5 []).Submatches = [] ∧
    (GetFileContextWithMatches ["a","b","c","d","e","f","g","h","i","j"] 3 5 []).Lines
      = ((["a","b","c","d","e","f","g","h","i","j"] : List String).drop (max 1 (3 - 5) - 1)).take
          (3 + 5 - max 1 (3 - 5) + 1) ∧
    (3 + 5 ≤ (["a","b","c","d","e","f","g","h","i","j"] : List String).length →
      GetFileContextWithMatches (["a","b","c","d","e","f","g","h","i","j"] ++ ["k"]) 3 5 []
        = GetFileContextWithMatches ["a","b","c","d","e","f","g","h","i","j"] 3 5 []) :=
  ⟨by decide,
   c9_file_context_window ["a","b","c","d","e","f","g","h","i","j"] ["k"] 3 [] (by decide)⟩

/-! ## The event loop (`Model.Update`, internal/ui/model.go)

The Bubble Tea model is embedded with the fields the search/preview
coordination reads and writes; view-only state (text inputs, viewports,
dropdown, timestamps) is omitted, and wall-clock values (`searchTime`) are
not modelled.  Three *ghost* fields — `sessionCounter`, `currentSession`,
`currentCancelled` — instrument the identity of the `context.WithCancel`
pair created by `executeSearch` and cancelled by `m.searchCancel()`; the Go
struct does not store a session id, and `Update` never reads the ghost
fields (nor the `origin` tag on `searchResult` messages), mirroring the
absence of any identity check in the code. -/

/-- `maxResults` constant from internal/ui/model.go. -/
def maxResults : Nat := 10000

/-- `previewContext` constant from internal/ui/model.go. -/
def previewContext : Nat := 5

/-- The mutable model state of internal/ui/model.go (coordination fields
only, plus ghost session instrumentation). -/
structure Model where
  results : List Match
  selectedIndex : Nat
  matchCount : Nat
  searching : Bool
  debounceToken : Nat
  lastPattern : String
  lastPath : String
  fileTypes : List String
  lastFileTypes : List String
  previewPath : String
  previewLines : List String
  previewStart : Nat
  previewMatch : Nat
  previewSubmatches : List Submatch
  sessionCounter : Nat
  currentSession : Nat
  currentCancelled : Bool
deriving DecidableEq, Repr

/-- The messages consumed by the embedded `Update` cases.  `edit` stands for
a key event falling through to the input-update path, carrying the *new*
input values (`patternInput.Value()`, the path already defaulted to `"."`
when empty, and `parseTypes` of the types field).  `searchResult` carries a
ghost `origin` naming the session whose batch loop produced it; the code has
no such field and `Update` ignores it. -/
inductive Msg
  | debounce (token : Nat) (pattern path : String)
  | searchResult (origin : Nat) (matches' : List Match) (done : Bool)
  | previewLoaded (path : String) (lines : List String) (startLine matchLine : Nat)
      (submatches : List Submatch)
  | edit (pattern path : String) (types : List String)
deriving DecidableEq, Repr

/-- The commands the embedded `Update` cases return: `tick` is the delayed
`tea.Tick(debounceDelay, …)` debounce trigger, `startSearch` the async batch
loop spawned by `executeSearch` (tagged with the ghost session id),
`loadPreview` the async preview load. -/
inductive Cmd
  | tick (token : Nat) (pattern path : String)
  | startSearch (session : Nat) (pattern path : String) (types : List String)
  | loadPreview (mt : Match)
deriving DecidableEq, Repr

/-- `Model.executeSearch` (internal/ui/model.go): reset the result list,
selection, counters and preview, mark searching, and create a fresh
cancellation context (ghost: a fresh session id, not cancelled); the
returned command is the batch-loop closure reading `m.fileTypes`. -/
def executeSearch (m : Model) (pattern path : String) : Model × Cmd :=
  let sid := m.sessionCounter + 1
  ({ m with
      results := [], selectedIndex := 0, matchCount := 0, searching := true,
      previewPath := "", previewLines := [], previewSubmatches := [],
      sessionCounter := sid, currentSession := sid, currentCancelled := false },
   Cmd.startSearch sid pattern path m.fileTypes)

/-- `Model.Update` (internal/ui/model.go), restricted to the messages above:

* `debounceMsg`: honored only when its token equals the current
  `debounceToken`, in which case `executeSearch` runs; otherwise a no-op.
* `searchResultMsg`: append the batch **unconditionally** (there is no
  session or token check in this case), update `matchCount` (before
  truncation, as in the code), clear `searching` on `done`, truncate the
  list past `maxResults`, and load a preview when results exist and none is
  shown.
* `previewLoadedMsg`: apply the loaded content only if the **path** equals
  the currently selected match's path.
* the fall-through input path: when pattern, path, or parsed types changed,
  record them, bump `debounceToken`, cancel the current session's context
  (ghost `currentCancelled`), clear the preview, and schedule a `tick`
  carrying the new token and the captured pattern/path. -/
def Update (m : Model) : Msg → Model × List Cmd
  | .debounce token pattern path =>
    if token = m.debounceToken then
      ((executeSearch m pattern path).1, [(executeSearch m pattern path).2])
    else (m, [])
  | .searchResult _origin ms done =>
    let m1 := { m with results := m.results ++ ms, matchCount := (m.results ++ ms).length }
    let m2 := if done then { m1 with searching := false } else m1
    let m3 := if maxResults < m2.results.length then
        { m2 with results := m2.results.take maxResults } else m2
    let cmds := if 0 < m3.results.length ∧ m3.previewPath = "" then
        match m3.results.get? m3.selectedIndex with
        | some mt => [Cmd.loadPreview mt]
        | none => []
      else []
    (m3, cmds)
  | .previewLoaded path lines startLine matchLine submatches =>
    match m.results.get? m.selectedIndex with
    | some mt =>
      if mt.Path = path then
        ({ m with
            previewPath := path, previewLines := lines, previewStart := startLine,
            previewMatch := matchLine, previewSubmatches := submatches }, [])
      else (m, [])
    | none => (m, [])
  | .edit pattern path types =>
    if pattern ≠ m.lastPattern ∨ path ≠ m.lastPath ∨ types ≠ m.lastFileTypes then
      ({ m with
          lastPattern := pattern, lastPath := path, lastFileTypes := types,
          fileTypes := types, debounceToken := m.debounceToken + 1,
          currentCancelled := (if m.currentSession = 0 then m.currentCancelled else true),
          previewPath := "", previewLines := [], previewSubmatches := [] },
       [Cmd.tick (m.debounceToken + 1) pattern path])
    else (m, [])

/-- The state after one `Update`. -/
def stepM (m : Model) (msg : Msg) : Model := (Update m msg).1

/-- The commands issued by one `Update`. -/
def cmdsM (m : Model) (msg : Msg) : List Cmd := (Update m msg).2

/-- Consume a sequence of delivered messages (the single-threaded event
loop). -/
def runM : Model → List Msg → Model
  | m, [] => m
  | m, msg :: rest => runM (stepM m msg) rest

/-- All commands issued while consuming a sequence of messages, in order. -/
def runCmds : Model → List Msg → List Cmd
  | _, [] => []
  | m, msg :: rest => cmdsM m msg ++ runCmds (stepM m msg) rest

/-- `NewModel` (internal/ui/model.go), coordination fields: empty results,
`lastPath = "."`, everything else zero. -/
def initModel : Model :=
  { results := [], selectedIndex := 0, matchCount := 0, searching := false,
    debounceToken := 0, lastPattern := "", lastPath := ".", fileTypes := [],
    lastFileTypes := [], previewPath := "", previewLines := [], previewStart := 0,
    previewMatch := 0, previewSubmatches := [], sessionCounter := 0,
    currentSession := 0, currentCancelled := false }

theorem searchResult_results (m : Model) (origin : Nat) (batch : List Match)
    (done : Bool) :
    (stepM m (.searchResult origin batch done)).results
      = (m.results ++ batch).take maxResults := by
  unfold stepM Update
  by_cases hlen : maxResults < m.results.length + batch.length
  · cases done <;> simp [hlen]
  · have htake : (m.results ++ batch).take maxResults = m.results ++ batch :=
      List.take_of_length_le (by simp only [List.length_append]; omega)
    cases done <;> simp [hlen, htake]

theorem stepM_results_le (m : Model) (msg : Msg)
    (h : m.results.length ≤ maxResults) :
    (stepM m msg).results.length ≤ maxResults := by
  cases msg with
  | debounce token pattern path =>
    unfold stepM Update
    by_cases ht : token = m.debounceToken
    · simp [ht, executeSearch]
    · simpa [ht] using h
  | searchResult origin ms done =>
    rw [searchResult_results]
    exact List.length_take_le _ _
  | previewLoaded path lines startLine matchLine submatches =>
    unfold stepM Update
    cases hq : m.results.get? m.selectedIndex with
    | none => simpa [hq] using h
    | some mt =>
      by_cases hp : mt.Path = path
      · simpa [hq, hp] using h
      · simpa [hq, hp] using h
  | edit pattern path types =>
    unfold stepM Update
    by_cases hc : pattern ≠ m.lastPattern ∨ path ≠ m.lastPath ∨ types ≠ m.lastFileTypes
    · simpa [hc] using h
    · simpa [hc] using h

theorem runM_results_le (m : Model) (msgs : List Msg)
    (h : m.results.length ≤ maxResults) :
    (runM m msgs).results.length ≤ maxResults := by
  induction msgs generalizing m with
  | nil => exact h
  | cons msg rest ih => exact ih (stepM m msg) (stepM_results_le m msg h)

/-- C3: processing any `searchResultMsg` leaves the visible result list
equal to the first 10 000 entries of the old list followed by the incoming
batch — the batch is appended in order, the retained prefix is never
reordered, and anything past the cap is dropped — and along every message
trace from the initial model the result list length never exceeds 10 000. -/
theorem c3_result_list_capped (m : Model) (origin : Nat) (batch : List Match)
    (done : Bool) (msgs : List Msg) :
    (stepM m (.searchResult origin batch done)).results
        = (m.results ++ batch).take maxResults ∧
    (stepM m (.searchResult origin batch done)).results.length ≤ maxResults ∧
    (runM initModel msgs).results.length ≤ maxResults := by
  refine ⟨searchResult_results m origin batch done, ?_, ?_⟩
  · rw [searchResult_results]
    exact List.length_take_le _ _
  · exact runM_results_le initModel msgs (by simp [initModel, maxResults])

/-- C5 amended: the `previewLoadedMsg` consumer re-validates the loaded
**path** (only) against the currently selected match: either the message is
discarded and the model is unchanged, or there is a currently selected match
whose path equals the message's path and the preview fields are replaced by
the message's content.  (As the counterexample shows, this path-level check
does not make the applied content correspond to the selected *match* when
two matches share a file.) -/
theorem c5_preview_applied_only_for_selected_path (m : Model) (path : String)
    (lines : List String) (startLine matchLine : Nat) (subs : List Submatch) :
    stepM m (.previewLoaded path lines startLine matchLine subs) = m ∨
    (∃ mt, m.results.get? m.selectedIndex = some mt ∧ mt.Path = path ∧
      (stepM m (.previewLoaded path lines startLine matchLine subs)).previewPath = mt.Path ∧
      (stepM m (.previewLoaded path lines startLine matchLine subs)).previewLines = lines ∧
      (stepM m (.previewLoaded path lines startLine matchLine subs)).previewStart = startLine ∧
      (stepM m (.previewLoaded path lines startLine matchLine subs)).previewMatch = matchLine ∧
      (stepM m (.previewLoaded path lines startLine matchLine subs)).previewSubmatches = subs) := by
  unfold stepM Update
  cases hq : m.results.get? m.selectedIndex with
  | none => left; rfl
  | some mt =>
    by_cases hp : mt.Path = path
    · right
      refine ⟨mt, rfl, hp, ?_, ?_, ?_, ?_, ?_⟩ <;> simp [hp]
    · left
      simp [hp]

/-- The message produced by the command `Model.loadPreview` returns for the
match `mt` (success path), given the file contents. -/
def previewMsgFor (fileLines : List String) (mt : Match) : Msg :=
  let ctx := GetFileContextWithMatches fileLines mt.LineNumber previewContext mt.Submatches
  .previewLoaded mt.Path ctx.Lines ctx.StartLine ctx.MatchLine ctx.Submatches

/-- Match A of the C5 counterexample: line 1 of `f.go`. -/
def matchA : Match := { Path := "f.go", LineNumber := 1, LineText := "alpha", Submatches := [] }

/-- Match B of the C5 counterexample: line 10 of the same file. -/
def matchB : Match := { Path := "f.go", LineNumber := 10, LineText := "juliet", Submatches := [] }

/-- The contents of `f.go`. -/
def fileF : List String :=
  ["alpha", "bravo", "charlie", "delta", "echo", "foxtrot", "golf", "hotel", "india", "juliet"]

/-- The model at the moment A's stale preview load completes: both matches
listed, B currently selected, no preview shown yet. -/
def mStale : Model := { initModel with results := [matchA, matchB], selectedIndex := 1 }

/-- Counterexample to C5 as stated: B (line 10 of `f.go`) is the currently
selected match, yet the completed preview load for A (line 1 of the same
file) passes the path-only re-validation and is applied — the model now
shows A's context window (lines 1–6) and A's match line under the selection
of B.  The claim that A's loaded content is never shown once the selection
moved to B is false when A and B share a path. -/
theorem c5_counterexample_same_file_stale_preview :
    mStale.selectedIndex = 1 ∧
    mStale.results.get? 1 = some matchB ∧
    (stepM mStale (previewMsgFor fileF matchA)).previewMatch = matchA.LineNumber ∧
    (stepM mStale (previewMsgFor fileF matchA)).previewLines = fileF.take 6 ∧
    matchA.LineNumber ≠ matchB.LineNumber := by
  refine ⟨rfl, rfl, rfl, ?_, by decide⟩
  rfl

/-- The batch the cancelled session has in flight in the C1 trace. -/
def staleMatch : Match :=
  { Path := "stale.go", LineNumber := 7, LineText := "old", Submatches := [] }

/-- The C1 failing trace: type `"a"`, let the debounce fire (session 1),
type `"ab"` (cancelling session 1), let the new debounce fire (session 2),
then deliver the batch session 1 emitted when its context was cancelled. -/
def c1Trace : List Msg :=
  [.edit "a" "." [], .debounce 1 "a" ".", .edit "ab" "." [],
   .debounce 2 "ab" ".", .searchResult 1 [staleMatch] true]

/-- C1 (claim is right, code lacks the check): the `searchResultMsg` case of
`Update` performs no session/token identity check, so a batch that a
cancelled session had in flight *is* appended to the visible result list.
In the trace: after the input changes to `"ab"`, session 1 is cancelled
(ghost `currentCancelled`); its batch loop returns exactly
`{[staleMatch], done := true}` on cancellation (`consumeLoop`); when that
message is delivered after session 2 started with an empty list, the event
loop appends `staleMatch` to session 2's list and even marks the search
finished. -/
theorem c1_cancelled_session_batch_is_appended :
    (runM initModel (c1Trace.take 3)).currentSession = 1 ∧
    (runM initModel (c1Trace.take 3)).currentCancelled = true ∧
    (runM initModel (c1Trace.take 4)).currentSession = 2 ∧
    (runM initModel (c1Trace.take 4)).results = [] ∧
    consumeLoop [ChanEvent.recv staleMatch, ChanEvent.cancelled] []
      = some { matches' := [staleMatch], done := true } ∧
    (runM initModel c1Trace).currentSession = 2 ∧
    (runM initModel c1Trace).results = [staleMatch] ∧
    (runM initModel c1Trace).searching = false := by
  refine ⟨?_, ?_, ?_, ?_, rfl, ?_, ?_, ?_⟩ <;> decide

/-! ## Debounce coalescing (C2)

One effective-input change, as seen by the fall-through input path of
`Update`: the new pattern, (defaulted) path, and parsed type filters. -/

/-- One input-change event. -/
structure EditEv where
  pattern : String
  path : String
  types : List String
deriving DecidableEq, Repr

/-- The message a change event delivers to the event loop. -/
def editMsg (e : EditEv) : Msg := .edit e.pattern e.path e.types

/-- A scheduled debounce trigger: token, captured pattern, captured path. -/
abbrev Tick := Nat × String × String

/-- Delivery of a fired `tea.Tick` as a `debounceMsg`. -/
def fireMsg (tk : Tick) : Msg := .debounce tk.1 tk.2.1 tk.2.2

/-- The debounce triggers scheduled among a command list. -/
def ticksOf (cmds : List Cmd) : List Tick :=
  cmds.filterMap (fun c => match c with
    | .tick t p q => some (t, p, q)
    | _ => none)

/-- The search sessions started among a command list: launch pattern, path,
and the type filters `executeSearch` read from the model. -/
def sessionsOf (cmds : List Cmd) : List (String × String × List String) :=
  cmds.filterMap (fun c => match c with
    | .startSearch _ p q ts => some (p, q, ts)
    | _ => none)

/-- Does this event change the effective input in state `m`
(the `currentPattern != m.lastPattern || currentPath != m.lastPath ||
typesChanged` test)? -/
def changedB (m : Model) (e : EditEv) : Bool :=
  decide (e.pattern ≠ m.lastPattern) || decide (e.path ≠ m.lastPath) ||
    decide (e.types ≠ m.lastFileTypes)

/-- Every event in the sequence changes the effective input of the state it
is applied in — i.e. the sequence is a run of genuine input changes. -/
def changingFromB : Model → List EditEv → Bool
  | _, [] => true
  | m, e :: es => changedB m e && changingFromB (stepM m (editMsg e)) es

theorem stepM_edit_changed (m : Model) (e : EditEv) (h : changedB m e = true) :
    (stepM m (editMsg e)).debounceToken = m.debounceToken + 1 ∧
    (stepM m (editMsg e)).lastPattern = e.pattern ∧
    (stepM m (editMsg e)).lastPath = e.path ∧
    (stepM m (editMsg e)).fileTypes = e.types ∧
    cmdsM m (editMsg e) = [Cmd.tick (m.debounceToken + 1) e.pattern e.path] := by
  have hc : e.pattern ≠ m.lastPattern ∨ e.path ≠ m.lastPath ∨ e.types ≠ m.lastFileTypes := by
    simpa [changedB, or_assoc] using h
  simp only [stepM, cmdsM, editMsg, Update]
  rw [if_pos hc]
  exact ⟨rfl, rfl, rfl, rfl, rfl⟩

theorem stepM_debounce_pres (m : Model) (t : Nat) (p q : String) :
    (stepM m (.debounce t p q)).debounceToken = m.debounceToken ∧
    (stepM m (.debounce t p q)).fileTypes = m.fileTypes := by
  have h1 : Update m (.debounce t p q)
      = if t = m.debounceToken then
          ((executeSearch m p q).1, [(executeSearch m p q).2])
        else (m, []) := rfl
  show (Update m (.debounce t p q)).1.debounceToken = _ ∧
    (Update m (.debounce t p q)).1.fileTypes = _
  rw [h1]
  by_cases ht : t = m.debounceToken
  · rw [if_pos ht]
    exact ⟨rfl, rfl⟩
  · rw [if_neg ht]
    exact ⟨rfl, rfl⟩

/-- Processing a list of fired debounce triggers: the sessions started are
exactly those of the triggers whose token equals the (unchanging) current
`debounceToken`, each launched with its captured pattern/path and the
(unchanging) current type filters. -/
theorem fires_sessions (fires : List Tick) (m : Model) :
    sessionsOf (runCmds m (fires.map fireMsg))
      = fires.filterMap (fun tk =>
          if tk.1 = m.debounceToken then some (tk.2.1, tk.2.2, m.fileTypes) else none) := by
  induction fires generalizing m with
  | nil => rfl
  | cons tk fires ih =>
    show sessionsOf (cmdsM m (fireMsg tk) ++ runCmds (stepM m (fireMsg tk)) (fires.map fireMsg))
        = _
    unfold sessionsOf
    rw [List.filterMap_append]
    obtain ⟨hpt, hpf⟩ := stepM_debounce_pres m tk.1 tk.2.1 tk.2.2
    have hpt' : (stepM m (fireMsg tk)).debounceToken = m.debounceToken := hpt
    have hpf' : (stepM m (fireMsg tk)).fileTypes = m.fileTypes := hpf
    have hrest := ih (stepM m (fireMsg tk))
    unfold sessionsOf at hrest
    have h1 : Update m (fireMsg tk)
        = if tk.1 = m.debounceToken then
            ((executeSearch m tk.2.1 tk.2.2).1, [(executeSearch m tk.2.1 tk.2.2).2])
          else (m, []) := rfl
    by_cases ht : tk.1 = m.debounceToken
    · have hcm : cmdsM m (fireMsg tk)
          = [Cmd.startSearch (m.sessionCounter + 1) tk.2.1 tk.2.2 m.fileTypes] := by
        show (Update m (fireMsg tk)).2 = _
        rw [h1, if_pos ht]
        rfl
      rw [hcm, hrest, hpt', hpf']
      simp [ht]
    · have hcm : cmdsM m (fireMsg tk) = [] := by
        show (Update m (fireMsg tk)).2 = _
        rw [h1, if_neg ht]
      have hst : stepM m (fireMsg tk) = m := by
        show (Update m (fireMsg tk)).1 = m
        rw [h1, if_neg ht]
      rw [hcm, hst]
      have hihm := ih m
      unfold sessionsOf at hihm
      rw [hihm]
      simp [ht]

/-- Effect of a run of changing input events: the token advances by one per
event, the `last*`/`fileTypes` fields hold the final event's values, every
scheduled trigger carries a token in `(t₀, t₀ + n]`, and exactly one
scheduled trigger carries the final token — the last event's, with the last
event's pattern and path. -/
theorem edits_chain (m : Model) (es : List EditEv) (h : changingFromB m es = true)
    (hne : es ≠ []) :
    (runM m (es.map editMsg)).debounceToken = m.debounceToken + es.length ∧
    (runM m (es.map editMsg)).lastPattern = (es.getLast hne).pattern ∧
    (runM m (es.map editMsg)).lastPath = (es.getLast hne).path ∧
    (runM m (es.map editMsg)).fileTypes = (es.getLast hne).types ∧
    (∀ tk ∈ ticksOf (runCmds m (es.map editMsg)),
      m.debounceToken < tk.1 ∧ tk.1 ≤ m.debounceToken + es.length) ∧
    (∀ ts : List String,
      (ticksOf (runCmds m (es.map editMsg))).filterMap (fun tk =>
          if tk.1 = m.debounceToken + es.length then some (tk.2.1, tk.2.2, ts) else none)
        = [((es.getLast hne).pattern, (es.getLast hne).path, ts)]) := by
  induction es generalizing m with
  | nil => exact absurd rfl hne
  | cons e es ih =>
    have hc : changedB m e = true := by
      have := h
      unfold changingFromB at this
      exact (Bool.and_eq_true _ _ |>.mp this).1
    have hrest : changingFromB (stepM m (editMsg e)) es = true := by
      have := h
      unfold changingFromB at this
      exact (Bool.and_eq_true _ _ |>.mp this).2
    obtain ⟨htok, hlp, hlq, hft, hcmd⟩ := stepM_edit_changed m e hc
    have hrunM : runM m ((e :: es).map editMsg) = runM (stepM m (editMsg e)) (es.map editMsg) := rfl
    have hrunC : runCmds m ((e :: es).map editMsg)
        = cmdsM m (editMsg e) ++ runCmds (stepM m (editMsg e)) (es.map editMsg) := rfl
    have hticks : ticksOf (runCmds m ((e :: es).map editMsg))
        = (m.debounceToken + 1, e.pattern, e.path)
            :: ticksOf (runCmds (stepM m (editMsg e)) (es.map editMsg)) := by
      rw [hrunC, hcmd]
      unfold ticksOf
      rw [List.filterMap_append]
      rfl
    cases es with
    | nil =>
      refine ⟨?_, ?_, ?_, ?_, ?_, ?_⟩
      · simpa [runM, hrunM] using htok
      · simpa [runM, hrunM] using hlp
      · simpa [runM, hrunM] using hlq
      · simpa [runM, hrunM] using hft
      · intro tk htk
        rw [hticks] at htk
        have : runCmds (stepM m (editMsg e)) ([].map editMsg) = [] := rfl
        rw [this] at htk
        simp only [ticksOf, List.filterMap_nil] at htk
        rcases List.mem_singleton.mp htk with rfl
        exact ⟨Nat.lt_succ_self _, Nat.le_refl _⟩
      · intro ts
        rw [hticks]
        have : runCmds (stepM m (editMsg e)) ([].map editMsg) = [] := rfl
        rw [this]
        simp [ticksOf, List.getLast]
    | cons e2 es2 =>
      have hne2 : e2 :: es2 ≠ [] := by simp
      obtain ⟨ihtok, ihlp, ihlq, ihft, ihbound, ihfil⟩ :=
        ih (stepM m (editMsg e)) hrest hne2
      have hlen : (e :: e2 :: es2).length = (e2 :: es2).length + 1 := rfl
      have htokeq : (stepM m (editMsg e)).debounceToken + (e2 :: es2).length
          = m.debounceToken + (e :: e2 :: es2).length := by
        rw [htok, hlen]; omega
      have hgl : (e :: e2 :: es2).getLast hne = (e2 :: es2).getLast hne2 :=
        List.getLast_cons hne2
      refine ⟨?_, ?_, ?_, ?_, ?_, ?_⟩
      · rw [hrunM, ihtok, htokeq]
      · rw [hrunM, ihlp, hgl]
      · rw [hrunM, ihlq, hgl]
      · rw [hrunM, ihft, hgl]
      · intro tk htk
        rw [hticks] at htk
        rcases List.mem_cons.mp htk with rfl | htk
        · constructor
          · omega
          · simp only [hlen]; omega
        · obtain ⟨hb1, hb2⟩ := ihbound tk htk
          constructor
          · omega
          · rw [← htokeq]; omega
      · intro ts
        rw [hticks]
        rw [List.filterMap_cons]
        have hno : ¬ (m.debounceToken + 1 = m.debounceToken + (e :: e2 :: es2).length) := by
          simp only [hlen]
          have : 0 < (e2 :: es2).length := by simp
          omega
        rw [if_neg hno]
        rw [← htokeq, ihfil ts, hgl]

/-- C2: for every run of input-change events within the debounce window
(each change bumps `debounceToken` and schedules a delayed trigger carrying
that token), once the input settles and the scheduled triggers fire — in any
order, possibly interleaved with leftover triggers of earlier settling
periods (token ≤ the initial token) — **exactly one** search session starts,
and it uses the final settled input: the last event's pattern, path, and
type filters.  Triggers whose token no longer equals the current
`debounceToken` are no-ops. -/
theorem c2_debounce_coalesces_to_one_search (m0 : Model) (es : List EditEv)
    (h : changingFromB m0 es = true) (hne : es ≠ [])
    (stale : List Tick) (hstale : ∀ tk ∈ stale, tk.1 ≤ m0.debounceToken)
    (fires : List Tick)
    (hperm : fires.Perm (stale ++ ticksOf (runCmds m0 (es.map editMsg)))) :
    sessionsOf (runCmds (runM m0 (es.map editMsg)) (fires.map fireMsg))
      = [((es.getLast hne).pattern, (es.getLast hne).path, (es.getLast hne).types)] := by
  obtain ⟨htok, hlp, hlq, hft, hbound, hfil⟩ := edits_chain m0 es h hne
  rw [fires_sessions, htok, hft]
  set f : Tick → Option (String × String × List String) := fun tk =>
    if tk.1 = m0.debounceToken + es.length then
      some (tk.2.1, tk.2.2, (es.getLast hne).types) else none with hf
  have hlen0 : 0 < es.length := List.length_pos.mpr hne
  have hpermf := hperm.filterMap f
  rw [List.filterMap_append] at hpermf
  have hstale0 : stale.filterMap f = [] := by
    rw [List.filterMap_eq_nil_iff]
    intro tk htk
    have := hstale tk htk
    simp only [hf]
    rw [if_neg (by omega)]
  have hticks1 : (ticksOf (runCmds m0 (es.map editMsg))).filterMap f
      = [((es.getLast hne).pattern, (es.getLast hne).path, (es.getLast hne).types)] :=
    hfil ((es.getLast hne).types)
  rw [hstale0, hticks1, List.nil_append] at hpermf
  exact hpermf.eq_singleton

/-- Witness for C2: from the initial model, two rapid changes (`"a"` then
`"ab"`, both scoped to `"."` with no type filters) schedule triggers with
tokens 1 and 2; delivering them out of order together with a leftover
token-0 trigger starts exactly one session, for the settled input `"ab"`. -/
theorem c2_witness :
    sessionsOf (runCmds
        (runM initModel (List.map editMsg
          [{ pattern := "a", path := ".", types := [] },
           { pattern := "ab", path := ".", types := [] }]))
        (List.map fireMsg
          ([((2 : Nat), "ab", "."), ((0 : Nat), "z", "."), ((1 : Nat), "a", ".")] : List Tick)))
      = [("ab", ".", [])] :=
  c2_debounce_coalesces_to_one_search initModel
    [{ pattern := "a", path := ".", types := [] },
     { pattern := "ab", path := ".", types := [] }]
    (by decide) (by decide) [((0 : Nat), "z", ".")] (by decide)
    [((2 : Nat), "ab", "."), ((0 : Nat), "z", "."), ((1 : Nat), "a", ".")]
    (by decide)

end Irg
